import Mathlib

/-!
# FFLottery core sampling engine: shallow embedding and verification

This file embeds the core of the FFLottery repository in Lean 4 and proves
properties of it:

* `src/utils/nbaLottery.js` — `selectWinnerByCombinations` (one weighted
  draw) and `runNBALottery` (the full Plackett-Luce run producing a
  ranking of all teams), and
* `src/utils/combinations.js` — `calculateTotalCombinations` and the
  equal / linear / exponential weight-distribution generators.

Modelling conventions:

* JS numbers are modelled exactly: weights (`combinations`) are `Nat`,
  generator entries are `Int` (the rounding adjustment could in principle
  go negative, which is exactly what we investigate), and intermediate
  fractional values are `ℚ`.  IEEE-754 rounding of the JS `number` type is
  idealised to exact rational arithmetic.
* `Math.random()` is modelled as a caller-supplied rational `q` with
  `0 ≤ q < 1`; a run consumes a stream `rng : Nat → ℚ`, the draw with pick
  number `p` reading `rng p`.
* `Math.round x` (for the nonnegative values occurring here, and indeed
  for all JS numbers) is `⌊x + 1/2⌋`.
* A JS `throw` is an `Except.error` carrying the thrown message.
* The observable behaviour of a run (the `await`-based pacing suspensions
  and the `onSelection` callback invocations, in order) is captured as a
  list of `Event`s returned next to the result.
-/

namespace FFLottery

open scoped List

/-- A team record as consumed by the lottery engine.  Only the fields the
engine reads are modelled: `userId` (the identity used for removal from the
pool; JS truthiness of a string means "nonempty") and `combinations` (the
weight). -/
structure Team where
  userId : String
  combinations : Nat
deriving DecidableEq, Repr

/-- `calculateTotalCombinations` from `src/utils/combinations.js`:
`combinations.reduce((sum, count) => sum + (count || 0), 0)`.  The `|| 0`
coalescing of missing entries is a no-op in the typed model. -/
def calculateTotalCombinations {α : Type} [Add α] [OfNat α 0]
    (combinations : List α) : α :=
  combinations.foldl (fun sum count => sum + count) 0

/-- `Math.floor(Math.random() * totalCombinations) + 1` from
`selectWinnerByCombinations` (line 51): the integer draw in `[1, total]`,
for a `Math.random()` outcome `q`. -/
def mathRandomInt (q : ℚ) (total : Nat) : Nat :=
  (Rat.floor (q * (total : ℚ))).toNat + 1

/-- `Rat.floor` (used in the embedding because it computes by kernel
reduction) agrees with the `Int.floor` of the `FloorRing ℚ` instance. -/
theorem ratFloor_eq_intFloor (q : ℚ) : Rat.floor q = ⌊q⌋ := by
  rw [Rat.floor_def', ← Rat.floor_def]

/-- The cumulative-distribution walk of `selectWinnerByCombinations`
(lines 54-67): skip teams with no combinations, accumulate the rest, and
return the first team whose cumulative range contains `random`.  Returns
`none` when the loop falls through (the JS code then runs the
"fallback to last team" statement on line 70). -/
def cumulativeWalk : List Team → Nat → Nat → Option Team
  | [], _, _ => none
  | team :: rest, random, cumulative =>
    if team.combinations = 0 then
      -- `if (combinations <= 0) continue`
      cumulativeWalk rest random cumulative
    else if random ≤ cumulative + team.combinations then some team
    else cumulativeWalk rest random (cumulative + team.combinations)

/-- `selectWinnerByCombinations(teams)` from `src/utils/nbaLottery.js`
(lines 38-71), with the `Math.random()` outcome `q` passed explicitly. -/
def selectWinnerByCombinations (teams : List Team) (q : ℚ) :
    Except String Team :=
  match teams with
  | [] => .error "Cannot select from empty teams array"
  | first :: rest =>
    let teams := first :: rest
    let totalCombinations :=
      calculateTotalCombinations (teams.map (fun t => t.combinations))
    if totalCombinations = 0 then
      .error "Total combinations cannot be zero"
    else
      let random := mathRandomInt q totalCombinations
      match cumulativeWalk teams random 0 with
      | some team => .ok team
      | none =>
        -- Fallback to last team (shouldn't happen if combinations are correct)
        .ok (teams.getLast (List.cons_ne_nil first rest))

/-- `LOTTERY.DEFAULT_DELAY_MS` from `src/constants/index.js`. -/
def DEFAULT_DELAY_MS : Int := 1500

/-- One observable step of a `runNBALottery` run: either a pacing
suspension (`await setTimeout(..., delay)`, line 115) or an invocation of
the `onSelection` callback with its three arguments in order
(`onSelection(selected, displayPosition, pickNumber)`, line 147). -/
inductive Event where
  | wait (delayMs : Int)
  | callback (team : Team) (displayPosition : Nat) (pickNumber : Nat)
deriving DecidableEq, Repr

/-- One record of the result array built by `runNBALottery` (lines
135-139): the spread-copied team together with `pickNumber` (1 = winner)
and `position` (the display position, 1 = worst). -/
structure Selection where
  team : Team
  pickNumber : Nat
  position : Nat
deriving DecidableEq, Repr

deriving instance DecidableEq for Except

/-- The `for (let pickNumber = 1; pickNumber <= totalTeams; ...)` loop of
`runNBALottery` (lines 113-149), recursing on the number of iterations
still to run (`remaining = totalTeams - pickNumber + 1`).  `sels` and
`evs` accumulate `selections` and the observable events. -/
def lotteryLoop (rng : Nat → ℚ) (delay : Int) (totalTeams : Nat) :
    Nat → Nat → List Team → List Selection → List Event →
    List Event × Except String (List Selection)
  | 0, _, _, sels, evs => (evs, .ok sels)
  | remaining + 1, pickNumber, availableTeams, sels, evs =>
    -- Wait before selection (for animation)
    let evs := evs ++ [Event.wait delay]
    match selectWinnerByCombinations availableTeams (rng pickNumber) with
    | .error e => (evs, .error e)
    | .ok selected =>
      if selected.userId = "" then
        -- `if (!selected || !selected.userId) throw ...` (falsy userId)
        (evs, .error "Invalid team selected during lottery")
      else
        let availableTeams :=
          availableTeams.filter (fun t => t.userId ≠ selected.userId)
        let displayPosition := totalTeams - pickNumber + 1
        let sel : Selection :=
          { team := selected, pickNumber := pickNumber,
            position := displayPosition }
        -- `selections.unshift(selection)`
        let sels := sel :: sels
        let evs := evs ++ [Event.callback selected displayPosition pickNumber]
        lotteryLoop rng delay totalTeams remaining (pickNumber + 1)
          availableTeams sels evs

/-- `runNBALottery(teams, onSelection, delay)` from
`src/utils/nbaLottery.js` (lines 96-153).  Returns the list of observable
events together with the result (`selections`, ordered worst pick first)
or the thrown error.  The `typeof delay !== 'number'` half of the delay
normalisation is unrepresentable in the typed model; `delay < 0` is
modelled faithfully. -/
def runNBALottery (teams : List Team) (rng : Nat → ℚ) (delay : Int) :
    List Event × Except String (List Selection) :=
  match teams with
  | [] => ([], .error "Cannot run lottery with empty teams array")
  | first :: rest =>
    let teams := first :: rest
    let delay := if delay < 0 then DEFAULT_DELAY_MS else delay
    lotteryLoop rng delay teams.length teams.length 1 teams [] []

/-- `Math.random() = 0` always yields the integer draw `1`. -/
theorem mathRandomInt_zero (total : Nat) : mathRandomInt 0 total = 1 := by
  simp [mathRandomInt, ratFloor_eq_intFloor]

example :
    runNBALottery [⟨"A", 5⟩, ⟨"B", 3⟩] (fun _ => 0) 2 =
      ([Event.wait 2, Event.callback ⟨"A", 5⟩ 2 1,
        Event.wait 2, Event.callback ⟨"B", 3⟩ 1 2],
       .ok [⟨⟨"B", 3⟩, 2, 1⟩, ⟨⟨"A", 5⟩, 1, 2⟩]) := by
  simp [runNBALottery, lotteryLoop, selectWinnerByCombinations,
    calculateTotalCombinations, cumulativeWalk, mathRandomInt_zero,
    List.filter, Team.mk.injEq]

example :
    runNBALottery [⟨"A", 0⟩] (fun _ => 0) 0 =
      ([Event.wait 0], .error "Total combinations cannot be zero") := by
  simp [runNBALottery, lotteryLoop, selectWinnerByCombinations,
    calculateTotalCombinations]

/-! ## Basic lemmas about the draw -/

theorem calculateTotalCombinations_nat (l : List Nat) :
    calculateTotalCombinations l = l.sum := by
  rw [calculateTotalCombinations, List.sum_eq_foldl]

theorem calculateTotalCombinations_int (l : List Int) :
    calculateTotalCombinations l = l.sum := by
  rw [calculateTotalCombinations, List.sum_eq_foldl]

theorem cumulativeWalk_mem {teams : List Team} {r c : Nat} {t : Team}
    (h : cumulativeWalk teams r c = some t) : t ∈ teams := by
  induction teams generalizing c with
  | nil => simp [cumulativeWalk] at h
  | cons hd tl ih =>
    rw [cumulativeWalk] at h
    split at h
    · exact List.mem_cons_of_mem hd (ih h)
    · split at h
      · rw [Option.some.injEq] at h
        exact h ▸ List.mem_cons_self hd tl
      · exact List.mem_cons_of_mem hd (ih h)

theorem cumulativeWalk_pos {teams : List Team} {r c : Nat} {t : Team}
    (h : cumulativeWalk teams r c = some t) : 0 < t.combinations := by
  induction teams generalizing c with
  | nil => simp [cumulativeWalk] at h
  | cons hd tl ih =>
    rw [cumulativeWalk] at h
    split at h
    · exact ih h
    · next hne =>
      split at h
      · cases h; exact Nat.pos_of_ne_zero hne
      · exact ih h

/-- The walk finds a team whenever the target `r` lies strictly above the
cumulative sum so far and within reach of the remaining weights. -/
theorem cumulativeWalk_isSome {teams : List Team} {r c : Nat}
    (hlo : c < r) (hhi : r ≤ c + (teams.map (fun t => t.combinations)).sum) :
    ∃ t, cumulativeWalk teams r c = some t := by
  induction teams generalizing c with
  | nil => simp at hhi; omega
  | cons hd tl ih =>
    rw [cumulativeWalk]
    by_cases h0 : hd.combinations = 0
    · simp only [h0, if_true]
      exact ih hlo (by simpa [h0] using hhi)
    · simp only [h0, if_false]
      by_cases hle : r ≤ c + hd.combinations
      · exact ⟨hd, by simp [hle]⟩
      · simp only [hle, if_false]
        exact ih (by omega) (by simp at hhi ⊢; omega)

theorem mathRandomInt_one_le (q : ℚ) (total : Nat) :
    1 ≤ mathRandomInt q total := by
  simp [mathRandomInt]

/-! ## The draw as §4.1 of the spec words it (refinement targets) -/

/-- Modelled from the spec (§4.1 `drawOne`): "compute
`total = sum(weight_i for i in pool where weight_i > 0)`". -/
def specTotal (teams : List Team) : Nat :=
  ((teams.filter (fun t => 0 < t.combinations)).map
    (fun t => t.combinations)).sum

/-- Modelled from the spec (§4.1 `drawOne`): "Walk the pool in a fixed,
caller-determined iteration order accumulating a running sum of weights;
the first entity whose cumulative sum is `>= r` is selected." -/
def specWalk : List Team → Nat → Nat → Option Team
  | [], _, _ => none
  | t :: ts, r, cum =>
    if r ≤ cum + t.combinations then some t
    else specWalk ts r (cum + t.combinations)

/-- Summing only the positive weights (the spec's wording) equals summing
all the weights (the code's `calculateTotalCombinations`), since the
weights are nonnegative integers. -/
theorem specTotal_eq_sum (teams : List Team) :
    specTotal teams = (teams.map (fun t => t.combinations)).sum := by
  induction teams with
  | nil => rfl
  | cons hd tl ih =>
    by_cases h : 0 < hd.combinations
    · simp [specTotal, h, List.filter_cons] at ih ⊢
      exact ih
    · have h0 : hd.combinations = 0 := by omega
      simp [specTotal, List.filter_cons, h, h0] at ih ⊢
      exact ih

/-- As long as the running sum stays strictly below the target `r`, the
code's walk (which `continue`s past zero weights) and the spec's walk
(where zero weights contribute nothing) agree. -/
theorem cumulativeWalk_eq_specWalk (teams : List Team) (r : Nat) :
    ∀ c, c < r → cumulativeWalk teams r c = specWalk teams r c := by
  induction teams with
  | nil => intro c _; rfl
  | cons hd tl ih =>
    intro c hc
    rw [cumulativeWalk, specWalk]
    by_cases h0 : hd.combinations = 0
    · rw [if_pos h0, h0, add_zero, if_neg (show ¬ r ≤ c by omega)]
      exact ih c hc
    · simp only [h0, if_false]
      by_cases hle : r ≤ c + hd.combinations
      · simp [hle]
      · simp only [hle, if_false]
        exact ih _ (by omega)

/-- With `0 ≤ q < 1`, the integer draw hits `v ∈ [1, total]` exactly when
`q` falls in the half-open interval `[(v-1)/total, v/total)` — each value
receives an interval of measure `1/total` of the unit interval, i.e. the
draw is uniform on `[1, total]` for uniform `q`. -/
theorem mathRandomInt_eq_iff {q : ℚ} {total v : Nat} (hq0 : 0 ≤ q)
    (htot : 0 < total) :
    mathRandomInt q total = v ↔
      ((v : ℚ) - 1) / (total : ℚ) ≤ q ∧ q < (v : ℚ) / (total : ℚ) := by
  have htq : (0 : ℚ) < (total : ℚ) := by exact_mod_cast htot
  have h0 : 0 ≤ ⌊q * (total : ℚ)⌋ := Int.floor_nonneg.2 (by positivity)
  rw [mathRandomInt, ratFloor_eq_intFloor]
  have htn : ((⌊q * (total : ℚ)⌋).toNat : ℤ) = ⌊q * (total : ℚ)⌋ :=
    Int.toNat_of_nonneg h0
  have hfloor : ⌊q * (total : ℚ)⌋ = (v : ℤ) - 1 ↔
      ((v : ℚ) - 1) / (total : ℚ) ≤ q ∧ q < (v : ℚ) / (total : ℚ) := by
    rw [Int.floor_eq_iff, div_le_iff₀ htq, lt_div_iff₀ htq]
    constructor
    · rintro ⟨h1, h2⟩
      constructor
      · calc ((v : ℚ) - 1) = (((v : ℤ) - 1 : ℤ) : ℚ) := by push_cast; ring
        _ ≤ q * (total : ℚ) := h1
      · calc q * (total : ℚ) < (((v : ℤ) - 1 : ℤ) : ℚ) + 1 := h2
        _ = (v : ℚ) := by push_cast; ring
    · rintro ⟨h1, h2⟩
      constructor
      · calc (((v : ℤ) - 1 : ℤ) : ℚ) = (v : ℚ) - 1 := by push_cast; ring
        _ ≤ q * (total : ℚ) := h1
      · calc q * (total : ℚ) < (v : ℚ) := h2
        _ = (((v : ℤ) - 1 : ℤ) : ℚ) + 1 := by push_cast; ring
  constructor
  · intro h
    exact hfloor.mp (by omega)
  · intro h
    have := hfloor.mpr h
    omega

theorem mathRandomInt_le_total {q : ℚ} {total : Nat}
    (hq1 : q < 1) (htot : 0 < total) : mathRandomInt q total ≤ total := by
  rw [mathRandomInt, ratFloor_eq_intFloor]
  have hcast : (0 : ℚ) < (total : ℚ) := by exact_mod_cast htot
  have hlt : q * (total : ℚ) < (total : ℚ) := by
    calc q * (total : ℚ) < 1 * (total : ℚ) :=
          mul_lt_mul_of_pos_right hq1 hcast
    _ = (total : ℚ) := one_mul _
  have hfloor : ⌊q * (total : ℚ)⌋ < (total : ℤ) :=
    Int.floor_lt.2 (by exact_mod_cast hlt)
  have : (⌊q * (total : ℚ)⌋).toNat < total := by
    rcases le_or_lt 0 ⌊q * (total : ℚ)⌋ with h | h
    · exact_mod_cast (Int.toNat_of_nonneg h) ▸ hfloor
    · simpa [Int.toNat_of_nonpos h.le] using htot
  omega


/-- Shared helper: with a valid `Math.random()` outcome and a nonzero
total, `selectWinnerByCombinations` resolves inside the cumulative walk
(the trailing fallback return is not used). -/
theorem selectWinner_resolves_in_walk {teams : List Team} {q : ℚ}
    (hne : teams ≠ [])
    (htot :
      calculateTotalCombinations (teams.map (fun t => t.combinations)) ≠ 0)
    (hq1 : q < 1) :
    ∃ t,
      cumulativeWalk teams
        (mathRandomInt q
          (calculateTotalCombinations (teams.map (fun t => t.combinations))))
        0 = some t ∧
      selectWinnerByCombinations teams q = .ok t := by
  match teams, hne with
  | first :: rest, _ =>
    set total :=
      calculateTotalCombinations
        ((first :: rest).map (fun t => t.combinations)) with htotal
    have hsum : total = (((first :: rest)).map (fun t => t.combinations)).sum :=
      calculateTotalCombinations_nat _
    have htpos : 0 < total := Nat.pos_of_ne_zero htot
    have hr1 : 1 ≤ mathRandomInt q total := mathRandomInt_one_le q total
    have hrle : mathRandomInt q total ≤ total := mathRandomInt_le_total hq1 htpos
    obtain ⟨t, hwalk⟩ :=
      @cumulativeWalk_isSome (first :: rest) (mathRandomInt q total) 0
        (by omega) (by omega)
    refine ⟨t, hwalk, ?_⟩
    simp only [selectWinnerByCombinations]
    rw [if_neg htot, hwalk]

/-- C2: for every pool in which at least one entity has positive weight,
a weight-0 entity is never the one selected by a draw: whatever team
`selectWinnerByCombinations` returns has positive weight, so a weight-0
entity can only ever be drawn via the single-remaining-entity situation,
never while a positive-weight entity remains in the pool. -/
theorem zero_weight_never_selected (teams : List Team) (q : ℚ)
    (hq1 : q < 1) (hpos : ∃ t ∈ teams, 0 < t.combinations) :
    ∀ t, selectWinnerByCombinations teams q = .ok t → 0 < t.combinations := by
  obtain ⟨w, hw, hwpos⟩ := hpos
  have hne : teams ≠ [] := by rintro rfl; simp at hw
  have hle : w.combinations ≤ (teams.map (fun t => t.combinations)).sum :=
    List.single_le_sum (fun x _ => Nat.zero_le x) _
      (List.mem_map_of_mem _ hw)
  have htot :
      calculateTotalCombinations (teams.map (fun t => t.combinations)) ≠ 0 := by
    rw [calculateTotalCombinations_nat]; omega
  obtain ⟨t', hwalk, hsel⟩ := selectWinner_resolves_in_walk hne htot hq1
  intro t ht
  rw [hsel] at ht
  injection ht with h
  subst h
  exact cumulativeWalk_pos hwalk

/-- C2 witness: a concrete draw in which a zero-weight entity is passed
over in favour of a positive-weight one. -/
theorem zero_weight_never_selected_witness :
    selectWinnerByCombinations [⟨"Z", 0⟩, ⟨"B", 2⟩] 0 = .ok ⟨"B", 2⟩ ∧
      0 < (Team.mk "B" 2).combinations := by
  have hsel : selectWinnerByCombinations [⟨"Z", 0⟩, ⟨"B", 2⟩] 0 =
      .ok ⟨"B", 2⟩ := by
    simp [selectWinnerByCombinations, calculateTotalCombinations,
      cumulativeWalk, mathRandomInt_zero]
  exact ⟨hsel,
    zero_weight_never_selected [⟨"Z", 0⟩, ⟨"B", 2⟩] 0 (by norm_num)
      ⟨⟨"B", 2⟩, by simp, by norm_num⟩ ⟨"B", 2⟩ hsel⟩

/-- C10: when the weights are nonnegative integers (as they are, being
`Nat`s) with positive sum and the random draw is well-formed, the
cumulative walk always selects a team before the loop ends, so the
trailing fallback `return teams[teams.length - 1]` is unreachable: the
returned team is the walk's team. -/
theorem cumulativeWalk_always_selects (teams : List Team) (q : ℚ)
    (htot :
      0 < calculateTotalCombinations (teams.map (fun t => t.combinations)))
    (hq1 : q < 1) :
    ∃ t,
      cumulativeWalk teams
        (mathRandomInt q
          (calculateTotalCombinations (teams.map (fun t => t.combinations))))
        0 = some t ∧
      selectWinnerByCombinations teams q = .ok t := by
  have hne : teams ≠ [] := by
    rintro rfl
    simp [calculateTotalCombinations] at htot
  exact selectWinner_resolves_in_walk hne (by omega) hq1

/-- C10 witness: a concrete draw resolved by the walk, not the fallback. -/
theorem cumulativeWalk_always_selects_witness :
    (0 <
      calculateTotalCombinations
        (([⟨"A", 3⟩, ⟨"B", 1⟩] : List Team).map (fun t => t.combinations))) ∧
    ∃ t,
      cumulativeWalk [⟨"A", 3⟩, ⟨"B", 1⟩]
        (mathRandomInt 0
          (calculateTotalCombinations
            (([⟨"A", 3⟩, ⟨"B", 1⟩] : List Team).map
              (fun t => t.combinations)))) 0 = some t ∧
      selectWinnerByCombinations [⟨"A", 3⟩, ⟨"B", 1⟩] 0 = .ok t := by
  refine ⟨by simp [calculateTotalCombinations], ?_⟩
  exact cumulativeWalk_always_selects [⟨"A", 3⟩, ⟨"B", 1⟩] 0
    (by simp [calculateTotalCombinations]) (by norm_num)


/-- C4: one draw computes the total as the spec's
sum-of-positive-weights, draws an integer `r` lying in the closed range
`[1, total]` and uniformly distributed there (value `v` is hit exactly
when `q` lies in `[(v-1)/total, v/total)`, an interval of length
`1/total`), and selects the first entity in iteration order whose
cumulative weight sum is `≥ r`, exactly as the spec's walk (`specWalk`)
words it. -/
theorem drawOne_matches_spec (teams : List Team) (q : ℚ)
    (hne : teams ≠ []) (htot : 0 < specTotal teams)
    (hq0 : 0 ≤ q) (hq1 : q < 1) :
    calculateTotalCombinations (teams.map (fun t => t.combinations)) =
      specTotal teams ∧
    (1 ≤ mathRandomInt q (specTotal teams) ∧
      mathRandomInt q (specTotal teams) ≤ specTotal teams) ∧
    (∀ v : Nat, 1 ≤ v → v ≤ specTotal teams →
      (mathRandomInt q (specTotal teams) = v ↔
        ((v : ℚ) - 1) / (specTotal teams : ℚ) ≤ q ∧
          q < (v : ℚ) / (specTotal teams : ℚ))) ∧
    ∃ t,
      specWalk teams (mathRandomInt q (specTotal teams)) 0 = some t ∧
      selectWinnerByCombinations teams q = .ok t := by
  have heq :
      calculateTotalCombinations (teams.map (fun t => t.combinations)) =
        specTotal teams := by
    rw [calculateTotalCombinations_nat, specTotal_eq_sum]
  refine ⟨heq,
    ⟨mathRandomInt_one_le _ _, mathRandomInt_le_total hq1 htot⟩,
    fun v _ _ => mathRandomInt_eq_iff hq0 htot, ?_⟩
  obtain ⟨t, hwalk, hsel⟩ :=
    selectWinner_resolves_in_walk hne (by omega) hq1
  rw [heq] at hwalk
  refine ⟨t, ?_, hsel⟩
  rw [← cumulativeWalk_eq_specWalk teams _ 0
    (mathRandomInt_one_le q (specTotal teams))]
  exact hwalk

/-- C4 witness: the draw on two concrete teams, with `q = 0`. -/
theorem drawOne_matches_spec_witness :
    (([⟨"A", 3⟩, ⟨"B", 1⟩] : List Team) ≠ [] ∧
      0 < specTotal [⟨"A", 3⟩, ⟨"B", 1⟩] ∧
      (0 : ℚ) ≤ 0 ∧ (0 : ℚ) < 1) ∧
    (calculateTotalCombinations
        (([⟨"A", 3⟩, ⟨"B", 1⟩] : List Team).map (fun t => t.combinations)) =
      specTotal [⟨"A", 3⟩, ⟨"B", 1⟩] ∧
    (1 ≤ mathRandomInt 0 (specTotal [⟨"A", 3⟩, ⟨"B", 1⟩]) ∧
      mathRandomInt 0 (specTotal [⟨"A", 3⟩, ⟨"B", 1⟩]) ≤
        specTotal [⟨"A", 3⟩, ⟨"B", 1⟩]) ∧
    (∀ v : Nat, 1 ≤ v → v ≤ specTotal [⟨"A", 3⟩, ⟨"B", 1⟩] →
      (mathRandomInt 0 (specTotal [⟨"A", 3⟩, ⟨"B", 1⟩]) = v ↔
        ((v : ℚ) - 1) / (specTotal [⟨"A", 3⟩, ⟨"B", 1⟩] : ℚ) ≤ 0 ∧
          (0 : ℚ) < (v : ℚ) / (specTotal [⟨"A", 3⟩, ⟨"B", 1⟩] : ℚ))) ∧
    ∃ t,
      specWalk [⟨"A", 3⟩, ⟨"B", 1⟩]
        (mathRandomInt 0 (specTotal [⟨"A", 3⟩, ⟨"B", 1⟩])) 0 = some t ∧
      selectWinnerByCombinations [⟨"A", 3⟩, ⟨"B", 1⟩] 0 = .ok t) :=
  ⟨⟨by simp, by decide, le_refl 0, by norm_num⟩,
    drawOne_matches_spec [⟨"A", 3⟩, ⟨"B", 1⟩] 0 (by simp) (by decide)
      (le_refl 0) (by norm_num)⟩

/-- C1 counterexample: a pool containing exactly one remaining entity of
weight 0 is NOT returned: both the single draw and the full run throw
`Total combinations cannot be zero` instead of producing
`[{entity, pickNumber: 1}]`. -/
theorem single_zero_weight_entity_errors :
    selectWinnerByCombinations [⟨"A", 0⟩] 0 =
      .error "Total combinations cannot be zero" ∧
    runNBALottery [⟨"A", 0⟩] (fun _ => 0) 1500 =
      ([Event.wait 1500], .error "Total combinations cannot be zero") := by
  constructor
  · simp [selectWinnerByCombinations, calculateTotalCombinations]
  · simp [runNBALottery, lotteryLoop, selectWinnerByCombinations,
      calculateTotalCombinations, DEFAULT_DELAY_MS]

/-- C1 amended: with exactly one remaining entity of POSITIVE weight,
the draw returns that entity and `runNBALottery` returns the one-record
result `[{entity, pickNumber: 1}]` without error; with a single
zero-weight entity both instead throw `Total combinations cannot be
zero` (see the counterexample). -/
theorem single_entity_positive_weight_run (id : String) (w : Nat)
    (rng : Nat → ℚ) (delay : Int) (hw : 0 < w) (hid : id ≠ "")
    (hq1 : rng 1 < 1) :
    selectWinnerByCombinations [⟨id, w⟩] (rng 1) = .ok ⟨id, w⟩ ∧
    (runNBALottery [⟨id, w⟩] rng delay).2 =
      .ok [⟨⟨id, w⟩, 1, 1⟩] := by
  have htotw : calculateTotalCombinations ([w] : List Nat) = w := by
    simp [calculateTotalCombinations_nat]
  have hsel : selectWinnerByCombinations [⟨id, w⟩] (rng 1) = .ok ⟨id, w⟩ := by
    have hr : mathRandomInt (rng 1) w ≤ w := mathRandomInt_le_total hq1 hw
    have hwne : w ≠ 0 := by omega
    simp [selectWinnerByCombinations, htotw, cumulativeWalk, hwne, hr]
  refine ⟨hsel, ?_⟩
  simp only [runNBALottery, List.length_cons, List.length_nil]
  simp [lotteryLoop, hsel, hid, List.filter]

/-! ## The full run -/

/-- With unique `userId`s, removing the selected team by
`filter(t => t.userId !== selected.userId)` removes exactly that team:
the pool is a permutation of the selected team consed onto the filtered
pool. -/
theorem filter_userId_perm {avail : List Team} {t : Team}
    (ht : t ∈ avail) (hnd : (avail.map Team.userId).Nodup) :
    avail ~ t :: avail.filter (fun x => x.userId ≠ t.userId) := by
  induction avail with
  | nil => cases ht
  | cons a l ih =>
    have hnd' : (l.map Team.userId).Nodup := (List.nodup_cons.mp hnd).2
    have hani : a.userId ∉ l.map Team.userId := (List.nodup_cons.mp hnd).1
    rcases List.mem_cons.mp ht with rfl | htl
    · have hfilter : l.filter (fun x => x.userId ≠ t.userId) = l := by
        rw [List.filter_eq_self]
        intro x hx
        have hxt : x.userId ≠ t.userId := fun hxe =>
          hani (hxe ▸ List.mem_map_of_mem Team.userId hx)
        simp [hxt]
      rw [List.filter_cons_of_neg (by simp), hfilter]
    · have hne : a.userId ≠ t.userId := by
        intro he
        exact hani (he ▸ List.mem_map_of_mem Team.userId htl)
      rw [List.filter_cons_of_pos (by simpa using hne)]
      calc a :: l ~ a :: t :: l.filter (fun x => x.userId ≠ t.userId) :=
            (ih htl hnd').cons a
      _ ~ t :: a :: l.filter (fun x => x.userId ≠ t.userId) :=
            List.Perm.swap _ _ _

/-- A nonempty pool of positive weights has nonzero total. -/
theorem total_ne_zero_of_pos {avail : List Team}
    (hne : avail ≠ []) (hpos : ∀ t ∈ avail, 0 < t.combinations) :
    calculateTotalCombinations (avail.map (fun t => t.combinations)) ≠ 0 := by
  match avail, hne with
  | a :: l, _ =>
    have ha : a.combinations ≤ ((a :: l).map (fun t => t.combinations)).sum :=
      List.single_le_sum (fun x _ => Nat.zero_le x) _
        (List.mem_map_of_mem _ (List.mem_cons_self a l))
    have := hpos a (List.mem_cons_self a l)
    rw [calculateTotalCombinations_nat]
    omega

/-- The two observable events contributed by one draw of the loop, in
order: the pacing wait, then the callback
`onSelection(selected, displayPosition, pickNumber)`. -/
def selectionEvents (delay : Int) (s : Selection) : List Event :=
  [Event.wait delay, Event.callback s.team s.position s.pickNumber]

/-- Master invariant of the `runNBALottery` loop: starting from a pool of
teams that all have positive weight and nonempty, pairwise-distinct
`userId`s, the loop succeeds and produces, in front of the
already-accumulated `sels`/`evs`, one selection per pool member, in
pick-number order `pick, pick+1, ...`, whose teams are a permutation of
the pool, whose display positions are `totalTeams - pickNumber + 1`, and
whose events are exactly a wait followed by a callback per draw. -/
theorem lotteryLoop_spec (rng : Nat → ℚ) (hrng : ∀ i, rng i < 1)
    (delay : Int) (totalTeams : Nat) :
    ∀ remaining pick avail sels evs,
      avail.length = remaining →
      (∀ t ∈ avail, 0 < t.combinations ∧ t.userId ≠ "") →
      (avail.map Team.userId).Nodup →
      ∃ news : List Selection,
        lotteryLoop rng delay totalTeams remaining pick avail sels evs =
          (evs ++ news.flatMap (selectionEvents delay),
            .ok (news.reverse ++ sels)) ∧
        news.map Selection.team ~ avail ∧
        news.map Selection.pickNumber = List.range' pick remaining ∧
        ∀ s ∈ news, s.position = totalTeams - s.pickNumber + 1 := by
  intro remaining
  induction remaining with
  | zero =>
    intro pick avail sels evs hlen _ _
    refine ⟨[], by simp [lotteryLoop], ?_, by simp, by simp⟩
    rw [List.length_eq_zero.mp hlen]
    simp
  | succ n ih =>
    intro pick avail sels evs hlen hvalid hnd
    have hne : avail ≠ [] := by
      intro h; rw [h] at hlen; simp at hlen
    have htot := total_ne_zero_of_pos hne (fun t ht => (hvalid t ht).1)
    obtain ⟨t, hwalk, hsel⟩ :=
      selectWinner_resolves_in_walk hne htot (hrng pick)
    have htmem : t ∈ avail := cumulativeWalk_mem hwalk
    have htid : t.userId ≠ "" := (hvalid t htmem).2
    have hperm : avail ~ t :: avail.filter (fun x => x.userId ≠ t.userId) :=
      filter_userId_perm htmem hnd
    set avail' := avail.filter (fun x => x.userId ≠ t.userId) with havail'
    have hlen' : avail'.length = n := by
      have := hperm.length_eq
      simp only [List.length_cons] at this
      omega
    have hvalid' : ∀ x ∈ avail', 0 < x.combinations ∧ x.userId ≠ "" :=
      fun x hx => hvalid x (List.mem_of_mem_filter hx)
    have hnd' : (avail'.map Team.userId).Nodup :=
      List.Nodup.sublist ((List.filter_sublist avail).map Team.userId) hnd
    obtain ⟨news', heq', hperm', hpicks', hpos'⟩ :=
      ih (pick + 1) avail' (⟨t, pick, totalTeams - pick + 1⟩ :: sels)
        (evs ++ [Event.wait delay,
          Event.callback t (totalTeams - pick + 1) pick]) hlen' hvalid' hnd'
    refine ⟨⟨t, pick, totalTeams - pick + 1⟩ :: news', ?_, ?_, ?_, ?_⟩
    · rw [lotteryLoop, hsel]
      simp only [htid, if_false, ite_false]
      rw [← havail']
      simp only [List.append_assoc, List.singleton_append]
      rw [heq']
      simp [selectionEvents, List.append_assoc]
    · simpa using (hperm'.cons t).trans hperm.symm
    · simp only [List.map_cons, hpicks', List.range'_succ]
    · intro s hs
      rcases List.mem_cons.mp hs with rfl | hs'
      · rfl
      · exact hpos' s hs'

/-- C3 amended: for every input of `N ≥ 1` entities with unique truthy
identifiers in which EVERY entity's weight is positive (the claim's
premise "total weight > 0" is not enough: a weight-0 entity among
`N ≥ 2` makes the run throw at its last picks — see the counterexample),
`runNBALottery` returns exactly `N` records, every input entity's
identifier appears exactly once, the `pickNumber`s are exactly
`{1, ..., N}` ordered worst pick (`N`) first and winner (`1`) last, and
every record's display position is `N - pickNumber + 1`. -/
theorem runNBALottery_coverage (teams : List Team) (rng : Nat → ℚ)
    (delay : Int) (hne : teams ≠ [])
    (hvalid : ∀ t ∈ teams, 0 < t.combinations ∧ t.userId ≠ "")
    (hnd : (teams.map Team.userId).Nodup) (hrng : ∀ i, rng i < 1) :
    ∃ evs res,
      runNBALottery teams rng delay = (evs, .ok res) ∧
      res.length = teams.length ∧
      res.map Selection.team ~ teams ∧
      (∀ t ∈ teams, (res.map (fun s => s.team.userId)).count t.userId = 1) ∧
      res.map Selection.pickNumber = (List.range' 1 teams.length).reverse ∧
      ∀ s ∈ res, s.position = teams.length - s.pickNumber + 1 := by
  match teams, hne with
  | first :: rest, _ =>
    obtain ⟨news, heq, hperm, hpicks, hpos⟩ :=
      lotteryLoop_spec rng hrng
        (if delay < 0 then DEFAULT_DELAY_MS else delay)
        (first :: rest).length (first :: rest).length 1 (first :: rest) [] []
        rfl hvalid hnd
    refine ⟨news.flatMap
        (selectionEvents (if delay < 0 then DEFAULT_DELAY_MS else delay)),
      news.reverse, ?_, ?_, ?_, ?_, ?_, ?_⟩
    · rw [runNBALottery]
      rw [heq]
      simp
    · have := hperm.length_eq
      simpa using this
    · simpa using (List.reverse_perm news).map Selection.team |>.trans hperm
    · intro t ht
      have hmapped : news.reverse.map (fun s => s.team.userId) ~
          (first :: rest).map Team.userId := by
        have h1 : (news.reverse.map Selection.team).map Team.userId ~
            ((first :: rest)).map Team.userId :=
          ((List.reverse_perm news).map Selection.team |>.trans hperm).map
            Team.userId
        simpa [List.map_map, Function.comp] using h1
      rw [hmapped.count_eq]
      exact List.count_eq_one_of_mem hnd (List.mem_map_of_mem Team.userId ht)
    · rw [List.map_reverse, hpicks]
    · intro s hs
      exact hpos s (List.mem_reverse.mp hs)

/-- C3 witness: a concrete valid two-team run. -/
theorem runNBALottery_coverage_witness :
    (([⟨"A", 1⟩, ⟨"B", 1⟩] : List Team) ≠ [] ∧
      (∀ t ∈ ([⟨"A", 1⟩, ⟨"B", 1⟩] : List Team),
        0 < t.combinations ∧ t.userId ≠ "") ∧
      (([⟨"A", 1⟩, ⟨"B", 1⟩] : List Team).map Team.userId).Nodup) ∧
    ∃ evs res,
      runNBALottery [⟨"A", 1⟩, ⟨"B", 1⟩] (fun _ => 0) 0 = (evs, .ok res) ∧
      res.length = ([⟨"A", 1⟩, ⟨"B", 1⟩] : List Team).length ∧
      res.map Selection.team ~ [⟨"A", 1⟩, ⟨"B", 1⟩] ∧
      (∀ t ∈ ([⟨"A", 1⟩, ⟨"B", 1⟩] : List Team),
        (res.map (fun s => s.team.userId)).count t.userId = 1) ∧
      res.map Selection.pickNumber =
        (List.range' 1 ([⟨"A", 1⟩, ⟨"B", 1⟩] : List Team).length).reverse ∧
      ∀ s ∈ res, s.position =
        ([⟨"A", 1⟩, ⟨"B", 1⟩] : List Team).length - s.pickNumber + 1 :=
  ⟨⟨by simp, by decide, by decide⟩,
    runNBALottery_coverage [⟨"A", 1⟩, ⟨"B", 1⟩] (fun _ => 0) 0 (by simp)
      (by decide) (by decide) (fun i => by norm_num)⟩

/-- C3 counterexample: the input `[A ↦ 5, B ↦ 0]` is valid in the
claim's sense (two unique identifiers, total weight `5 > 0`), yet
`runNBALottery` does not return 2 records: the weight-0 entity is never
drawn, so the last remaining pool is all-zero-weight and the run throws
`Total combinations cannot be zero` instead. -/
theorem runNBALottery_positive_total_can_error :
    (runNBALottery [⟨"A", 5⟩, ⟨"B", 0⟩] (fun _ => 0) 0).2 =
      .error "Total combinations cannot be zero" := by
  simp [runNBALottery, lotteryLoop, selectWinnerByCombinations,
    calculateTotalCombinations, cumulativeWalk, mathRandomInt_zero,
    List.filter, Team.mk.injEq]

/-- C6 counterexample: in a concrete two-team run the first callback
invocation is `onSelection(A, 2, 1)` — its second argument is `2`, the
DISPLAY position, while that draw's pick number is `1` (passed third),
so the callback is NOT invoked with the pick number as its second
argument. -/
theorem callback_second_argument_is_display_position :
    (runNBALottery [⟨"A", 1⟩, ⟨"B", 1⟩] (fun _ => 0) 7).1 =
      [Event.wait 7, Event.callback ⟨"A", 1⟩ 2 1,
        Event.wait 7, Event.callback ⟨"B", 1⟩ 1 2] ∧
    (2 : Nat) ≠ 1 := by
  constructor
  · simp [runNBALottery, lotteryLoop, selectWinnerByCombinations,
      calculateTotalCombinations, cumulativeWalk, mathRandomInt_zero,
      List.filter, Team.mk.injEq]
  · omega

/-- C6 amended: during a valid run the observer callback is invoked
exactly once per draw, in strictly increasing pick-number order
`1, 2, ..., N`, as `onSelection(selectedEntity, displayPosition,
pickNumber)`: the selected entity is the first argument, the pick number
is the THIRD argument, and the second argument is the display position
`N - pickNumber + 1`. -/
theorem callback_once_per_draw_in_pick_order (teams : List Team)
    (rng : Nat → ℚ) (delay : Int) (hne : teams ≠ [])
    (hvalid : ∀ t ∈ teams, 0 < t.combinations ∧ t.userId ≠ "")
    (hnd : (teams.map Team.userId).Nodup) (hrng : ∀ i, rng i < 1) :
    ∃ (news : List Selection) (res : List Selection),
      runNBALottery teams rng delay =
        (news.flatMap
          (selectionEvents (if delay < 0 then DEFAULT_DELAY_MS else delay)),
          .ok res) ∧
      res = news.reverse ∧
      news.map Selection.pickNumber = List.range' 1 teams.length ∧
      ∀ s ∈ news, s.position = teams.length - s.pickNumber + 1 := by
  match teams, hne with
  | first :: rest, _ =>
    obtain ⟨news, heq, _, hpicks, hpos⟩ :=
      lotteryLoop_spec rng hrng
        (if delay < 0 then DEFAULT_DELAY_MS else delay)
        (first :: rest).length (first :: rest).length 1 (first :: rest) [] []
        rfl hvalid hnd
    refine ⟨news, news.reverse, ?_, rfl, hpicks, hpos⟩
    rw [runNBALottery, heq]
    simp

/-- C6 amended witness: the concrete two-team run of the counterexample,
seen through the amended statement. -/
theorem callback_once_per_draw_in_pick_order_witness :
    (([⟨"C", 1⟩, ⟨"D", 1⟩] : List Team) ≠ [] ∧
      (([⟨"C", 1⟩, ⟨"D", 1⟩] : List Team).map Team.userId).Nodup) ∧
    ∃ (news : List Selection) (res : List Selection),
      runNBALottery [⟨"C", 1⟩, ⟨"D", 1⟩] (fun _ => 0) 7 =
        (news.flatMap
          (selectionEvents (if (7 : Int) < 0 then DEFAULT_DELAY_MS else 7)),
          .ok res) ∧
      res = news.reverse ∧
      news.map Selection.pickNumber =
        List.range' 1 ([⟨"C", 1⟩, ⟨"D", 1⟩] : List Team).length ∧
      ∀ s ∈ news, s.position =
        ([⟨"C", 1⟩, ⟨"D", 1⟩] : List Team).length - s.pickNumber + 1 :=
  ⟨⟨by simp, by decide⟩,
    callback_once_per_draw_in_pick_order [⟨"C", 1⟩, ⟨"D", 1⟩] (fun _ => 0) 7
      (by simp) (by decide) (by decide) (fun i => by norm_num)⟩

/-- The callback invocations contained in an event trace (the pacing
waits filtered out). -/
def callbackEvents (evs : List Event) : List Event :=
  evs.filter fun e =>
    match e with
    | .wait _ => false
    | .callback _ _ _ => true

theorem callbackEvents_append (a b : List Event) :
    callbackEvents (a ++ b) = callbackEvents a ++ callbackEvents b := by
  simp [callbackEvents]

theorem callbackEvents_wait (d : Int) : callbackEvents [Event.wait d] = [] :=
  rfl

theorem callbackEvents_callback (t : Team) (dp pn : Nat) :
    callbackEvents [Event.callback t dp pn] = [Event.callback t dp pn] :=
  rfl

/-- The loop's outcome and its callback trace do not depend on the pacing
delay: the delay only ever flows into `Event.wait` entries. -/
theorem lotteryLoop_delay_irrelevant (rng : Nat → ℚ) (d1 d2 : Int)
    (totalTeams : Nat) :
    ∀ remaining pick avail sels evs1 evs2,
      callbackEvents evs1 = callbackEvents evs2 →
      (lotteryLoop rng d1 totalTeams remaining pick avail sels evs1).2 =
        (lotteryLoop rng d2 totalTeams remaining pick avail sels evs2).2 ∧
      callbackEvents
          (lotteryLoop rng d1 totalTeams remaining pick avail sels evs1).1 =
        callbackEvents
          (lotteryLoop rng d2 totalTeams remaining pick avail sels evs2).1 := by
  intro remaining
  induction remaining with
  | zero => intro pick avail sels evs1 evs2 hevs; exact ⟨rfl, hevs⟩
  | succ n ih =>
    intro pick avail sels evs1 evs2 hevs
    have hevs' : callbackEvents (evs1 ++ [Event.wait d1]) =
        callbackEvents (evs2 ++ [Event.wait d2]) := by
      rw [callbackEvents_append, callbackEvents_append,
        callbackEvents_wait, callbackEvents_wait, hevs]
    rw [lotteryLoop, lotteryLoop]
    cases hsel : selectWinnerByCombinations avail (rng pick) with
    | error e => exact ⟨rfl, hevs'⟩
    | ok selected =>
      dsimp only
      by_cases hid : selected.userId = ""
      · rw [if_pos hid, if_pos hid]
        exact ⟨rfl, hevs'⟩
      · rw [if_neg hid, if_neg hid]
        apply ih
        simp only [callbackEvents_append, callbackEvents_wait,
          callbackEvents_callback, List.append_nil, hevs]

/-- C8: the pacing delay has no bearing on the random outcome: two runs
on the same entities consuming the same random stream but with any two
delay values produce the identical result (same entities, same pick
order, or the same error) and the identical sequence of callback
invocations; only the `Event.wait` entries differ. -/
theorem pacing_delay_has_no_bearing (teams : List Team) (rng : Nat → ℚ)
    (d1 d2 : Int) :
    (runNBALottery teams rng d1).2 = (runNBALottery teams rng d2).2 ∧
    callbackEvents (runNBALottery teams rng d1).1 =
      callbackEvents (runNBALottery teams rng d2).1 := by
  match teams with
  | [] => exact ⟨rfl, rfl⟩
  | first :: rest =>
    rw [runNBALottery]
    exact lotteryLoop_delay_irrelevant rng
      (if d1 < 0 then DEFAULT_DELAY_MS else d1)
      (if d2 < 0 then DEFAULT_DELAY_MS else d2)
      (first :: rest).length (first :: rest).length 1 (first :: rest) [] []
      [] rfl

/-- C5: `runNBALottery` raises `Cannot run lottery with empty teams
array` for zero entities and `Total combinations cannot be zero` when
the weights sum to 0 with more than one entity, and both failures are
atomic: the observable event trace contains no callback invocation (for
the empty input it is empty; for the zero-total input it is a single
pacing wait) and no partial result is produced. -/
theorem run_fails_atomically :
    (∀ (rng : Nat → ℚ) (delay : Int),
      runNBALottery [] rng delay =
        ([], .error "Cannot run lottery with empty teams array")) ∧
    (∀ (teams : List Team) (rng : Nat → ℚ) (delay : Int),
      1 < teams.length →
      calculateTotalCombinations (teams.map (fun t => t.combinations)) = 0 →
      runNBALottery teams rng delay =
        ([Event.wait (if delay < 0 then DEFAULT_DELAY_MS else delay)],
          .error "Total combinations cannot be zero") ∧
      callbackEvents (runNBALottery teams rng delay).1 = []) := by
  refine ⟨fun rng delay => rfl, ?_⟩
  intro teams rng delay hlen htot
  match teams with
  | first :: rest =>
    have hrun : runNBALottery (first :: rest) rng delay =
        ([Event.wait (if delay < 0 then DEFAULT_DELAY_MS else delay)],
          .error "Total combinations cannot be zero") := by
      rw [runNBALottery]
      simp only [List.length_cons]
      rw [lotteryLoop]
      simp only [selectWinnerByCombinations]
      rw [if_pos htot]
      simp
    exact ⟨hrun, by rw [hrun]; rfl⟩

/-- C5 witness: two zero-weight entities. -/
theorem run_fails_atomically_witness :
    ((1 : Nat) <
        ([⟨"A", 0⟩, ⟨"B", 0⟩] : List Team).length ∧
      calculateTotalCombinations
        (([⟨"A", 0⟩, ⟨"B", 0⟩] : List Team).map (fun t => t.combinations)) =
          0) ∧
    runNBALottery [] (fun _ => 0) 3 =
      ([], .error "Cannot run lottery with empty teams array") ∧
    runNBALottery [⟨"A", 0⟩, ⟨"B", 0⟩] (fun _ => 0) 3 =
      ([Event.wait 3], .error "Total combinations cannot be zero") := by
  refine ⟨⟨by simp, by decide⟩, run_fails_atomically.1 (fun _ => 0) 3, ?_⟩
  have h := (run_fails_atomically.2 [⟨"A", 0⟩, ⟨"B", 0⟩] (fun _ => 0) 3
    (by simp) (by decide)).1
  simpa using h

/-- C1 amended witness: a single entity of weight 2. -/
theorem single_entity_positive_weight_run_witness :
    selectWinnerByCombinations [⟨"X", 2⟩] ((fun _ => (0 : ℚ)) 1) =
      .ok ⟨"X", 2⟩ ∧
    (runNBALottery [⟨"X", 2⟩] (fun _ => (0 : ℚ)) 0).2 =
      .ok [⟨⟨"X", 2⟩, 1, 1⟩] :=
  single_entity_positive_weight_run "X" 2 (fun _ => 0) 0 (by norm_num)
    (by simp) (by norm_num)

/-! ## Weight-distribution generators (`src/utils/combinations.js`) -/

/-- JS `Math.round`: round half toward positive infinity, `⌊x + 1/2⌋`
(computed via `Rat.floor` so that it kernel-reduces). -/
def mathRound (x : ℚ) : ℤ := Rat.floor (x + 1/2)

theorem mathRound_eq_floor (x : ℚ) : mathRound x = ⌊x + 1/2⌋ :=
  ratFloor_eq_intFloor _

theorem mathRound_nonneg {x : ℚ} (hx : 0 ≤ x) : 0 ≤ mathRound x := by
  rw [mathRound_eq_floor]
  exact Int.floor_nonneg.2 (by linarith)

/-- `generateEqualCombinations(numTeams, total)` from
`src/utils/combinations.js` (lines 89-100): `floor(total/numTeams)` each,
with the remainder distributed one unit at a time to the first
(worst-ranked) teams. -/
def generateEqualCombinations (numTeams total : Nat) : List Int :=
  let base := total / numTeams
  let remainder := total % numTeams
  (List.range numTeams).map
    (fun i => if i < remainder then (base : Int) + 1 else (base : Int))

/-- The rounding-drift adjustment shared by the linear and exponential
generators (`src/utils/combinations.js` lines 127-134 and 168-175):
compute the current total, and push the difference from the requested
total into entry 0. -/
def adjustToTotal (total : Nat) (combinations : List Int) : List Int :=
  let currentTotal := calculateTotalCombinations combinations
  let difference := (total : Int) - currentTotal
  if difference ≠ 0 then combinations.modifyHead (· + difference)
  else combinations

/-- `generateLinearCombinations(numTeams, total)` from
`src/utils/combinations.js` (lines 116-135): entry `i` is
`round((numTeams - i) / (numTeams*(numTeams+1)/2) * total)`, then the
rounding drift is pushed into entry 0.  JS float arithmetic is idealised
to exact rationals. -/
def generateLinearCombinations (numTeams total : Nat) : List Int :=
  let sum : ℚ := ((numTeams : ℚ) * ((numTeams : ℚ) + 1)) / 2
  let combinations := (List.range numTeams).map
    (fun (i : Nat) =>
      mathRound ((((numTeams : ℚ) - (i : ℚ)) / sum) * (total : ℚ)))
  adjustToTotal total combinations

/-- `generateExponentialCombinations(numTeams, total)` from
`src/utils/combinations.js` (lines 151-176): entry `i` carries weight
`2 ^ (numTeams - i - 1)`, scaled by `total / sum(weights)` and rounded,
with the rounding drift pushed into entry 0.  JS float arithmetic is
idealised to exact rationals. -/
def generateExponentialCombinations (numTeams total : Nat) : List Int :=
  let weights := (List.range numTeams).map
    (fun i => (2 : ℚ) ^ (numTeams - i - 1))
  let sum : ℚ := weights.sum
  let combinations := weights.map (fun w => mathRound (w / sum * (total : ℚ)))
  adjustToTotal total combinations

theorem modifyHead_add_sum (l : List Int) (d : Int) (hne : l ≠ []) :
    (l.modifyHead (· + d)).sum = l.sum + d := by
  match l, hne with
  | a :: t, _ => simp [List.modifyHead]; ring

theorem modifyHead_length (l : List Int) (f : Int → Int) :
    (l.modifyHead f).length = l.length := by
  cases l <;> simp [List.modifyHead]

/-- Whatever the rounded entries were, the adjusted list sums to exactly
`total`. -/
theorem adjustToTotal_sum (combos : List Int) (total : Nat)
    (hne : combos ≠ []) : (adjustToTotal total combos).sum = (total : Int) := by
  rw [adjustToTotal, calculateTotalCombinations_int]
  split
  · rw [modifyHead_add_sum _ _ hne]; ring
  · omega

theorem adjustToTotal_length (combos : List Int) (total : Nat) :
    (adjustToTotal total combos).length = combos.length := by
  rw [adjustToTotal]
  split
  · exact modifyHead_length _ _
  · rfl

theorem sum_map_range_int (f : Nat → Int) :
    ∀ n, ((List.range n).map f).sum = ∑ i in Finset.range n, f i := by
  intro n
  induction n with
  | zero => simp
  | succ m ih =>
    rw [List.range_succ, List.map_append, List.sum_append,
      Finset.sum_range_succ, ih]
    simp

theorem equal_entries_sum (b : Int) (r : Nat) :
    ∀ n, ((List.range n).map
        (fun i => if i < r then b + 1 else b)).sum = n * b + min n r := by
  intro n
  induction n with
  | zero => simp
  | succ m ih =>
    rw [List.range_succ, List.map_append, List.sum_append, ih]
    by_cases hm : m < r
    · have h1 : min m r = m := by omega
      have h2 : min (m + 1) r = m + 1 := by omega
      rw [h1, h2]
      simp only [hm, if_true, ite_true, List.map_cons, List.map_nil,
        List.sum_cons, List.sum_nil]
      push_cast
      ring
    · have h1 : min m r = r := by omega
      have h2 : min (m + 1) r = r := by omega
      rw [h1, h2]
      simp only [hm, if_false, ite_false, List.map_cons, List.map_nil,
        List.sum_cons, List.sum_nil]
      push_cast
      ring

theorem sum_map_range {α : Type} [AddCommMonoid α] (f : Nat → α) :
    ∀ n, ((List.range n).map f).sum = ∑ i in Finset.range n, f i := by
  intro n
  induction n with
  | zero => simp
  | succ m ih =>
    rw [List.range_succ, List.map_append, List.sum_append,
      Finset.sum_range_succ, ih]
    simp

/-- The rounding-drift adjustment step preserves nonnegativity provided
the rounded TAIL entries sum to at most `total`: the adjusted head is
`total` minus the tail sum, and the tail is untouched. -/
theorem adjustToTotal_nonneg (first : Int) (tail : List Int) (total : Nat)
    (hnonneg : ∀ x ∈ first :: tail, 0 ≤ x)
    (htail : tail.sum ≤ (total : Int)) :
    ∀ x ∈ adjustToTotal total (first :: tail), 0 ≤ x := by
  intro x hx
  rw [adjustToTotal, calculateTotalCombinations_int] at hx
  split at hx
  · simp only [List.modifyHead, List.sum_cons, List.mem_cons] at hx
    rcases hx with rfl | hx
    · have : first + ((total : Int) - (first + tail.sum)) =
          (total : Int) - tail.sum := by ring
      rw [this]
      omega
    · exact hnonneg x (List.mem_cons_of_mem first hx)
  · exact hnonneg x hx

/-- `⌊y + 1/2⌋ ≤ ⌊2y⌋` for `y ≥ 0`: rounding never exceeds doubling. -/
theorem floor_add_half_le_floor_double {y : ℚ} (hy : 0 ≤ y) :
    ⌊y + 1/2⌋ ≤ ⌊2 * y⌋ := by
  set n := ⌊y + 1/2⌋ with hn
  have hle : (n : ℚ) ≤ y + 1/2 := Int.floor_le _
  rw [Int.le_floor]
  rcases le_or_lt (n : ℚ) y with h | h
  · linarith
  · have hn1 : (1 : ℚ) ≤ (n : ℚ) := by
      have : (0 : ℤ) < n := by exact_mod_cast lt_of_le_of_lt hy h
      exact_mod_cast this
    linarith

/-- Sum of the exponential weights `2^(N-1), ..., 2, 1`. -/
theorem expo_weights_sum (N : Nat) :
    (((List.range N).map (fun i => (2 : ℚ) ^ (N - i - 1))).sum) =
      2 ^ N - 1 := by
  rw [sum_map_range]
  have hreflect : ∑ i in Finset.range N, (2 : ℚ) ^ (N - i - 1) =
      ∑ i in Finset.range N, (2 : ℚ) ^ i := by
    rw [← Finset.sum_range_reflect]
    apply Finset.sum_congr rfl
    intro i hi
    have hi' : i < N := Finset.mem_range.mp hi
    congr 1
    omega
  rw [hreflect, geom_sum_eq (by norm_num : (2 : ℚ) ≠ 1)]
  norm_num

/-- Key inequality for the exponential generator: the rounded tail
entries (weights `2^0 .. 2^(N-2)`) sum to at most `total`, because each
round is at most the floor of the next power's exact value and those
floors sum below `total * (2^N - 2) / (2^N - 1) ≤ total`. -/
theorem expo_round_tail_sum_le (N T : Nat) (hN : 1 ≤ N) :
    ∑ m in Finset.range (N - 1),
        mathRound ((2 : ℚ) ^ m / (2 ^ N - 1) * (T : ℚ)) ≤ (T : Int) := by
  set M : ℚ := 2 ^ N - 1 with hM
  have hM1 : (1 : ℚ) ≤ M := by
    have h2 : (2 : ℚ) ^ 1 ≤ 2 ^ N := by
      apply pow_le_pow_right₀ (by norm_num) hN
    rw [hM]
    simp at h2
    linarith
  have hM0 : (0 : ℚ) < M := by linarith
  have hstep : ∀ m : Nat,
      mathRound ((2 : ℚ) ^ m / M * (T : ℚ)) ≤
        ⌊(2 : ℚ) ^ (m + 1) / M * (T : ℚ)⌋ := by
    intro m
    rw [mathRound_eq_floor]
    have harg : (0 : ℚ) ≤ (2 : ℚ) ^ m / M * (T : ℚ) := by positivity
    have h2 : (2 : ℚ) ^ (m + 1) / M * (T : ℚ) =
        2 * ((2 : ℚ) ^ m / M * (T : ℚ)) := by ring
    rw [h2]
    exact floor_add_half_le_floor_double harg
  calc ∑ m in Finset.range (N - 1),
        mathRound ((2 : ℚ) ^ m / M * (T : ℚ))
      ≤ ∑ m in Finset.range (N - 1), ⌊(2 : ℚ) ^ (m + 1) / M * (T : ℚ)⌋ :=
        Finset.sum_le_sum (fun m _ => hstep m)
    _ ≤ (T : Int) := by
        have hcast : ((∑ m in Finset.range (N - 1),
            ⌊(2 : ℚ) ^ (m + 1) / M * (T : ℚ)⌋ : Int) : ℚ) ≤ (T : ℚ) := by
          push_cast
          calc (∑ m in Finset.range (N - 1),
              ((⌊(2 : ℚ) ^ (m + 1) / M * (T : ℚ)⌋ : Int) : ℚ))
              ≤ ∑ m in Finset.range (N - 1),
                (2 : ℚ) ^ (m + 1) / M * (T : ℚ) :=
                Finset.sum_le_sum (fun m _ => Int.floor_le _)
            _ = (T : ℚ) / M * (∑ m in Finset.range (N - 1), (2 : ℚ) ^ (m + 1)) := by
                rw [Finset.mul_sum]
                apply Finset.sum_congr rfl
                intro m _
                ring
            _ ≤ (T : ℚ) := by
                have hsum : ∑ m in Finset.range (N - 1), (2 : ℚ) ^ (m + 1) =
                    2 ^ N - 2 := by
                  have : ∀ m : Nat, (2 : ℚ) ^ (m + 1) = 2 * 2 ^ m := by
                    intro m; ring
                  rw [Finset.sum_congr rfl (fun m _ => this m), ← Finset.mul_sum,
                    geom_sum_eq (by norm_num : (2 : ℚ) ≠ 1)]
                  have hN' : N - 1 + 1 = N := by omega
                  have hpow : (2 : ℚ) ^ N = 2 ^ (N - 1) * 2 := by
                    rw [← pow_succ, hN']
                  field_simp
                  rw [hpow]
                  ring
                rw [hsum]
                have hfrac : (2 : ℚ) ^ N - 2 ≤ M := by rw [hM]; linarith
                have hT0 : (0 : ℚ) ≤ (T : ℚ) := Nat.cast_nonneg T
                have h2N : (0 : ℚ) ≤ 2 ^ N - 2 := by
                  have h2 : (2 : ℚ) ^ 1 ≤ 2 ^ N :=
                    pow_le_pow_right₀ (by norm_num) hN
                  simp at h2
                  linarith
                calc (T : ℚ) / M * (2 ^ N - 2) ≤ (T : ℚ) / M * M := by
                      apply mul_le_mul_of_nonneg_left hfrac
                      positivity
                  _ = (T : ℚ) := by field_simp
        exact_mod_cast hcast

/-- Generic shape of both rounding generators: `N` rounded entries from
an entry function `h`, then the drift adjustment.  If all raw entries
are nonnegative and the tail entries (indices `1..N-1`) sum to at most
`total`, the result has length `N`, is entrywise nonnegative, and sums
exactly to `total`. -/
theorem generated_spec (N T : Nat) (hN : 1 ≤ N) (h : Nat → Int)
    (hok : ∀ i, i < N → 0 ≤ h i)
    (htail : ∑ i in Finset.range (N - 1), h (i + 1) ≤ (T : Int)) :
    (adjustToTotal T ((List.range N).map h)).length = N ∧
    (∀ x ∈ adjustToTotal T ((List.range N).map h), 0 ≤ x) ∧
    (adjustToTotal T ((List.range N).map h)).sum = (T : Int) := by
  match N, hN with
  | n + 1, _ =>
    have hsplit : (List.range (n + 1)).map h =
        h 0 :: (List.range n).map (h ∘ Nat.succ) := by
      rw [List.range_succ_eq_map, List.map_cons, List.map_map]
    have hne : (List.range (n + 1)).map h ≠ [] := by
      rw [hsplit]; exact List.cons_ne_nil _ _
    refine ⟨?_, ?_, adjustToTotal_sum _ _ hne⟩
    · rw [adjustToTotal_length]; simp
    · rw [hsplit]
      apply adjustToTotal_nonneg
      · intro x hx
        rcases List.mem_cons.mp hx with rfl | hx'
        · exact hok 0 (by omega)
        · obtain ⟨i, him, rfl⟩ := List.mem_map.mp hx'
          exact hok (i + 1) (by
            have := List.mem_range.mp him
            omega)
      · rw [sum_map_range]
        simpa using htail

theorem generateExponentialCombinations_eq (N T : Nat) :
    generateExponentialCombinations N T =
      adjustToTotal T ((List.range N).map
        (fun i =>
          mathRound ((2 : ℚ) ^ (N - i - 1) / (2 ^ N - 1) * (T : ℚ)))) := by
  simp only [generateExponentialCombinations, List.map_map, expo_weights_sum]
  rfl

/-- The exponential generator returns `N` nonnegative integers summing
exactly to `total`. -/
theorem generateExponentialCombinations_spec (N T : Nat) (hN : 1 ≤ N) :
    (generateExponentialCombinations N T).length = N ∧
    (∀ x ∈ generateExponentialCombinations N T, 0 ≤ x) ∧
    (generateExponentialCombinations N T).sum = (T : Int) := by
  have hM0 : (0 : ℚ) < 2 ^ N - 1 := by
    have h2 : (2 : ℚ) ^ 1 ≤ 2 ^ N := pow_le_pow_right₀ (by norm_num) hN
    simp at h2
    linarith
  rw [generateExponentialCombinations_eq]
  apply generated_spec N T hN
  · intro i _
    apply mathRound_nonneg
    exact mul_nonneg (div_nonneg (by positivity) hM0.le) (Nat.cast_nonneg T)
  · have hcongr : ∀ i ∈ Finset.range (N - 1),
        mathRound ((2 : ℚ) ^ (N - (i + 1) - 1) / (2 ^ N - 1) * (T : ℚ)) =
          mathRound ((2 : ℚ) ^ (N - 1 - 1 - i) / (2 ^ N - 1) * (T : ℚ)) := by
      intro i hi
      have hexp : N - (i + 1) - 1 = N - 1 - 1 - i := by omega
      rw [hexp]
    rw [Finset.sum_congr rfl hcongr,
      Finset.sum_range_reflect
        (fun m => mathRound ((2 : ℚ) ^ m / (2 ^ N - 1) * (T : ℚ))) (N - 1)]
    exact expo_round_tail_sum_le N T hN

/-- Nat division as a count over `range`: `n / d` is the number of
`j < B` with `(j+1) * d ≤ n`, whenever `n / d ≤ B`. -/
theorem natDiv_eq_card_range (n d B : Nat) (hd : 0 < d) (hB : n / d ≤ B) :
    n / d = ((Finset.range B).filter (fun j => (j + 1) * d ≤ n)).card := by
  have hset : (Finset.range B).filter (fun j => (j + 1) * d ≤ n) =
      Finset.range (n / d) := by
    ext j
    simp only [Finset.mem_filter, Finset.mem_range]
    constructor
    · rintro ⟨_, h2⟩
      have := (Nat.le_div_iff_mul_le hd).mpr h2
      omega
    · intro hj
      have h2 : j + 1 ≤ n / d := by omega
      exact ⟨by omega, (Nat.le_div_iff_mul_le hd).mp h2⟩
  rw [hset, Finset.card_range]

theorem sum_range_odd (m : Nat) :
    ∑ j in Finset.range m, (2 * j + 1) = m ^ 2 := by
  induction m with
  | zero => simp
  | succ k ih =>
    rw [Finset.sum_range_succ, ih]
    have : (k + 1) ^ 2 = k ^ 2 + (2 * k + 1) := by ring
    rw [this]

/-- The crux for the linear generator: the rounded tail entries
`round(T*(i+1)/S)` for `i+1 = 1..N-1`, with `S = N(N+1)/2`, sum to at
most `T`.  Double counting: entry `i` counts the `j < T` with
`(2j+1)S ≤ 2T(i+1)`; summing over `j` first, at most `N - (2j+1)S/(2T)`
values of `i` qualify, and over the `j` that contribute at all this sums
to at most `JN - SJ²/(2T) = T - ((2T-JN)² + NJ²)/(4T) ≤ T`. -/
theorem linear_tail_counting (N T : Nat) (hN : 1 ≤ N) (hT : 1 ≤ T) :
    ∑ i in Finset.range (N - 1),
        (2 * T * (i + 1) + N * (N + 1) / 2) / (2 * (N * (N + 1) / 2)) ≤ T := by
  set S := N * (N + 1) / 2 with hSdef
  have h2S : 2 * S = N * (N + 1) :=
    Nat.mul_div_cancel' (Nat.even_mul_succ_self N).two_dvd
  have hNN : 1 * 2 ≤ N * (N + 1) := Nat.mul_le_mul hN (by omega)
  have hSpos : 0 < S := by omega
  have hNS : N ≤ S := by
    rw [hSdef]
    rw [Nat.le_div_iff_mul_le (by norm_num)]
    exact Nat.mul_le_mul_left N (by omega)
  set M := N - 1 with hMdef
  -- each tail entry is at most T, so it can be written as a count
  have hFle : ∀ i, i ∈ Finset.range M →
      (2 * T * (i + 1) + S) / (2 * S) ≤ T := by
    intro i hi
    have hiM : i < M := Finset.mem_range.mp hi
    rw [Nat.div_le_iff_le_mul_add_pred (by omega)]
    have hk : i + 1 ≤ S := by omega
    have h1 : 2 * T * (i + 1) ≤ 2 * T * S := Nat.mul_le_mul_left _ hk
    have h2 : 2 * T * S = 2 * S * T := by ring
    omega
  have hswap : ∑ i in Finset.range M, (2 * T * (i + 1) + S) / (2 * S) =
      ∑ j in Finset.range T,
        ((Finset.range M).filter
          (fun i => (j + 1) * (2 * S) ≤ 2 * T * (i + 1) + S)).card := by
    have h1 : ∀ i ∈ Finset.range M,
        (2 * T * (i + 1) + S) / (2 * S) =
          ((Finset.range T).filter
            (fun j => (j + 1) * (2 * S) ≤ 2 * T * (i + 1) + S)).card :=
      fun i hi => natDiv_eq_card_range _ _ _ (by omega) (hFle i hi)
    rw [Finset.sum_congr rfl h1]
    simp only [Finset.card_filter]
    rw [Finset.sum_comm]
  -- the count condition, subtraction-free
  have hcond : ∀ j i, (j + 1) * (2 * S) ≤ 2 * T * (i + 1) + S ↔
      (2 * j + 1) * S ≤ 2 * T * (i + 1) := by
    intro j i
    have e1 : (j + 1) * (2 * S) = (2 * j + 1) * S + S := by ring
    omega
  -- ceiling threshold: the smallest k = i+1 that satisfies the condition
  set c : Nat → Nat := fun j => ((2 * j + 1) * S + (2 * T - 1)) / (2 * T)
    with hcdef
  have hc_le : ∀ j k, c j ≤ k ↔ (2 * j + 1) * S ≤ 2 * T * k := by
    intro j k
    rw [hcdef]
    rw [Nat.div_le_iff_le_mul_add_pred (by omega)]
    have e2 : 2 * T * k = (2 * T) * k := by ring
    omega
  have hc1 : ∀ j, 1 ≤ c j := by
    intro j
    by_contra h
    have h0 : c j = 0 := by omega
    have := (hc_le j 0).mp (by omega)
    have hS1 : 1 ≤ (2 * j + 1) * S := by
      have := Nat.mul_le_mul (by omega : 1 ≤ 2 * j + 1) hSpos
      omega
    omega
  -- the ceiling really is a lower bound for the exact rational threshold
  have hc_ge : ∀ j, (2 * j + 1) * S ≤ 2 * T * (c j) :=
    fun j => (hc_le j (c j)).mp le_rfl
  -- per-j cardinality bound
  have hcard : ∀ j, ((Finset.range M).filter
      (fun i => (j + 1) * (2 * S) ≤ 2 * T * (i + 1) + S)).card ≤
        M - (c j - 1) := by
    intro j
    have hsub : (Finset.range M).filter
        (fun i => (j + 1) * (2 * S) ≤ 2 * T * (i + 1) + S) ⊆
          Finset.Ico (c j - 1) M := by
      intro i hi
      obtain ⟨hiM, hicond⟩ := Finset.mem_filter.mp hi
      have h1 := (hcond j i).mp hicond
      have h2 := (hc_le j (i + 1)).mpr h1
      exact Finset.mem_Ico.mpr ⟨by omega, Finset.mem_range.mp hiM⟩
    calc ((Finset.range M).filter _).card ≤ (Finset.Ico (c j - 1) M).card :=
          Finset.card_le_card hsub
      _ = M - (c j - 1) := Nat.card_Ico _ _
  -- the set of contributing j is an initial segment
  set J := min T ((2 * T * M + S) / (2 * S)) with hJdef
  have hJT : J ≤ T := min_le_left _ _
  have hDset : (Finset.range T).filter
      (fun j => (2 * j + 1) * S ≤ 2 * T * M) = Finset.range J := by
    ext j
    simp only [Finset.mem_filter, Finset.mem_range, hJdef, lt_min_iff]
    constructor
    · rintro ⟨hjT, hj⟩
      refine ⟨hjT, ?_⟩
      have : (j + 1) * (2 * S) ≤ 2 * T * M + S := by
        have e1 : (j + 1) * (2 * S) = (2 * j + 1) * S + S := by ring
        omega
      have := (Nat.le_div_iff_mul_le (by omega : 0 < 2 * S)).mpr this
      omega
    · rintro ⟨hjT, hj⟩
      refine ⟨hjT, ?_⟩
      have h1 : j + 1 ≤ (2 * T * M + S) / (2 * S) := by omega
      have h2 := (Nat.le_div_iff_mul_le (by omega : 0 < 2 * S)).mp h1
      have e1 : (j + 1) * (2 * S) = (2 * j + 1) * S + S := by ring
      omega
  have hvanish : ∀ j ∈ Finset.range T, j ∉ Finset.range J →
      ((Finset.range M).filter
        (fun i => (j + 1) * (2 * S) ≤ 2 * T * (i + 1) + S)).card = 0 := by
    intro j hjT hjJ
    rw [Finset.card_eq_zero, Finset.filter_eq_empty_iff]
    intro i hi
    intro hicond
    have h1 := (hcond j i).mp hicond
    have h2 : (2 * j + 1) * S ≤ 2 * T * M := by
      have hiM : i < M := Finset.mem_range.mp hi
      have h3 : 2 * T * (i + 1) ≤ 2 * T * M := Nat.mul_le_mul_left _ (by omega)
      omega
    have : j ∈ (Finset.range T).filter
        (fun j => (2 * j + 1) * S ≤ 2 * T * M) :=
      Finset.mem_filter.mpr ⟨hjT, h2⟩
    rw [hDset] at this
    exact hjJ this
  have hrestrict : ∑ j in Finset.range T,
      ((Finset.range M).filter
        (fun i => (j + 1) * (2 * S) ≤ 2 * T * (i + 1) + S)).card =
      ∑ j in Finset.range J,
        ((Finset.range M).filter
          (fun i => (j + 1) * (2 * S) ≤ 2 * T * (i + 1) + S)).card :=
    (Finset.sum_subset (by
      apply Finset.range_subset.mpr
      omega) hvanish).symm
  -- now bound the restricted sum in ℚ
  have hTQ : (0 : ℚ) < (T : ℚ) := by exact_mod_cast hT
  have hSQcast : 2 * (S : ℚ) = (N : ℚ) * ((N : ℚ) + 1) := by
    exact_mod_cast congrArg (fun x : Nat => (x : ℚ)) h2S
  have hkeyQ : ∀ j ∈ Finset.range J,
      (((Finset.range M).filter
        (fun i => (j + 1) * (2 * S) ≤ 2 * T * (i + 1) + S)).card : ℚ) ≤
        (N : ℚ) - (2 * (j : ℚ) + 1) * (S : ℚ) / (2 * (T : ℚ)) := by
    intro j hjJ
    have hjJ' : j < J := Finset.mem_range.mp hjJ
    have hcQ : (2 * (j : ℚ) + 1) * (S : ℚ) / (2 * (T : ℚ)) ≤ ((c j : ℚ)) := by
      rw [div_le_iff₀ (by linarith)]
      have := hc_ge j
      have hcast : ((2 * j + 1) * S : ℕ) ≤ (2 * T * (c j) : ℕ) := this
      calc (2 * (j : ℚ) + 1) * (S : ℚ) = (((2 * j + 1) * S : ℕ) : ℚ) := by
            push_cast; ring
        _ ≤ ((2 * T * (c j) : ℕ) : ℚ) := by exact_mod_cast hcast
        _ = (c j : ℚ) * (2 * (T : ℚ)) := by push_cast; ring
    have hcount := hcard j
    rcases le_or_lt (c j - 1) M with hcase | hcase
    · have hcast : (((Finset.range M).filter
          (fun i => (j + 1) * (2 * S) ≤ 2 * T * (i + 1) + S)).card : ℚ) ≤
            (M : ℚ) - ((c j : ℚ) - 1) := by
        have h1 : (c j - 1 : ℕ) + 1 = c j := by have := hc1 j; omega
        have h2 : ((M - (c j - 1) : ℕ) : ℚ) = (M : ℚ) - ((c j : ℚ) - 1) := by
          have h3 : ((M - (c j - 1) : ℕ) : ℚ) = (M : ℚ) - ((c j - 1 : ℕ) : ℚ) := by
            rw [Nat.cast_sub hcase]
          rw [h3]
          have h4 : ((c j - 1 : ℕ) : ℚ) = (c j : ℚ) - 1 := by
            have : ((c j - 1 : ℕ) : ℚ) + 1 = (c j : ℚ) := by
              exact_mod_cast congrArg (fun x : Nat => (x : ℚ)) h1
            linarith
          rw [h4]
        rw [← h2]
        exact_mod_cast hcount
      have hMN : (M : ℚ) = (N : ℚ) - 1 := by
        rw [hMdef]
        have : ((N - 1 : ℕ) : ℚ) = (N : ℚ) - 1 := by
          rw [Nat.cast_sub hN]; norm_num
        exact this
      rw [hMN] at hcast
      linarith
    · -- c j - 1 > M: the count is 0 and the bound is nonnegative
      have hzero : ((Finset.range M).filter
          (fun i => (j + 1) * (2 * S) ≤ 2 * T * (i + 1) + S)).card = 0 := by
        have := hcard j
        omega
      rw [hzero]
      -- (2j+1)S ≤ 2TM ≤ 2TN  gives the rational bound ≥ 0
      have hjD : (2 * j + 1) * S ≤ 2 * T * M := by
        have : j ∈ Finset.range J := hjJ
        rw [← hDset] at this
        exact (Finset.mem_filter.mp this).2
      have hMN : 2 * T * M ≤ 2 * T * N := Nat.mul_le_mul_left _ (by omega)
      have hcastb : (2 * (j : ℚ) + 1) * (S : ℚ) ≤ (N : ℚ) * (2 * (T : ℚ)) := by
        calc (2 * (j : ℚ) + 1) * (S : ℚ) = (((2 * j + 1) * S : ℕ) : ℚ) := by
              push_cast; ring
          _ ≤ ((2 * T * N : ℕ) : ℚ) := by exact_mod_cast le_trans hjD hMN
          _ = (N : ℚ) * (2 * (T : ℚ)) := by push_cast; ring
      have : (2 * (j : ℚ) + 1) * (S : ℚ) / (2 * (T : ℚ)) ≤ (N : ℚ) := by
        rw [div_le_iff₀ (by linarith)]
        exact hcastb
      simp only [Nat.cast_zero]
      linarith
  have hsumQ : ∑ j in Finset.range J,
      ((N : ℚ) - (2 * (j : ℚ) + 1) * (S : ℚ) / (2 * (T : ℚ))) =
        (J : ℚ) * (N : ℚ) - (S : ℚ) * (J : ℚ) ^ 2 / (2 * (T : ℚ)) := by
    rw [Finset.sum_sub_distrib, Finset.sum_const, Finset.card_range]
    have h1 : ∑ j in Finset.range J,
        (2 * (j : ℚ) + 1) * (S : ℚ) / (2 * (T : ℚ)) =
          (∑ j in Finset.range J, (2 * (j : ℚ) + 1)) *
            ((S : ℚ) / (2 * (T : ℚ))) := by
      rw [Finset.sum_mul]
      apply Finset.sum_congr rfl
      intro j _
      ring
    have h2 : ∑ j in Finset.range J, (2 * (j : ℚ) + 1) = (J : ℚ) ^ 2 := by
      have h3 : ∑ j in Finset.range J, (2 * (j : ℚ) + 1) =
          ((∑ j in Finset.range J, (2 * j + 1) : ℕ) : ℚ) := by
        push_cast
        rfl
      rw [h3, sum_range_odd]
      push_cast
      ring
    rw [h1, h2]
    simp only [nsmul_eq_mul]
    ring
  have hfinal : (J : ℚ) * (N : ℚ) - (S : ℚ) * (J : ℚ) ^ 2 / (2 * (T : ℚ)) ≤
      (T : ℚ) := by
    have h4T : (0 : ℚ) < 4 * (T : ℚ) := by linarith
    have hid : (J : ℚ) * (N : ℚ) - (S : ℚ) * (J : ℚ) ^ 2 / (2 * (T : ℚ)) =
        (4 * (T : ℚ) * ((J : ℚ) * (N : ℚ)) -
          (2 * (S : ℚ)) * (J : ℚ) ^ 2) / (4 * (T : ℚ)) := by
      field_simp
      ring
    rw [hid, div_le_iff₀ h4T, hSQcast]
    nlinarith [sq_nonneg (2 * (T : ℚ) - (J : ℚ) * (N : ℚ)),
      mul_nonneg (Nat.cast_nonneg N : (0 : ℚ) ≤ (N : ℚ))
        (sq_nonneg (J : ℚ))]
  -- put everything together
  have hQ : ((∑ i in Finset.range M,
      (2 * T * (i + 1) + S) / (2 * S) : ℕ) : ℚ) ≤ (T : ℚ) := by
    rw [hswap, hrestrict]
    calc ((∑ j in Finset.range J,
          ((Finset.range M).filter
            (fun i => (j + 1) * (2 * S) ≤ 2 * T * (i + 1) + S)).card : ℕ) : ℚ)
        = ∑ j in Finset.range J,
            (((Finset.range M).filter
              (fun i => (j + 1) * (2 * S) ≤ 2 * T * (i + 1) + S)).card : ℚ) := by
          push_cast
          rfl
      _ ≤ ∑ j in Finset.range J,
            ((N : ℚ) - (2 * (j : ℚ) + 1) * (S : ℚ) / (2 * (T : ℚ))) :=
          Finset.sum_le_sum hkeyQ
      _ = (J : ℚ) * (N : ℚ) - (S : ℚ) * (J : ℚ) ^ 2 / (2 * (T : ℚ)) := hsumQ
      _ ≤ (T : ℚ) := hfinal
  exact_mod_cast hQ

/-- `Math.round (a / b) = (2a + b) / (2b)` in integer arithmetic, for
natural `a` and positive natural `b`. -/
theorem mathRound_natDiv (a b : Nat) (hb : 0 < b) :
    mathRound ((a : ℚ) / (b : ℚ)) = (((2 * a + b) / (2 * b) : ℕ) : Int) := by
  rw [mathRound_eq_floor]
  have hb' : ((b : ℚ)) ≠ 0 := by positivity
  have harg : (a : ℚ) / (b : ℚ) + 1 / 2 =
      (((2 * a + b : ℕ) : ℤ) : ℚ) / ((2 * b : ℕ) : ℚ) := by
    push_cast
    field_simp
    ring
  rw [harg, Rat.floor_intCast_div_natCast]
  exact (Int.ofNat_ediv _ _).symm

theorem generateEqualCombinations_spec (N T : Nat) (hN : 1 ≤ N) :
    (generateEqualCombinations N T).length = N ∧
    (∀ x ∈ generateEqualCombinations N T, 0 ≤ x) ∧
    (generateEqualCombinations N T).sum = (T : Int) := by
  refine ⟨by simp [generateEqualCombinations], ?_, ?_⟩
  · intro x hx
    simp only [generateEqualCombinations, List.mem_map] at hx
    obtain ⟨i, _, rfl⟩ := hx
    split <;> positivity
  · rw [generateEqualCombinations, equal_entries_sum]
    have hmod : T % N < N := Nat.mod_lt T (by omega)
    have hmin : min N (T % N) = T % N := by omega
    rw [hmin]
    have := Nat.div_add_mod T N
    have hcast : (N : Int) * ((T / N : ℕ) : Int) + ((T % N : ℕ) : Int) =
        ((N * (T / N) + T % N : ℕ) : Int) := by push_cast; ring
    rw [hcast]
    exact_mod_cast this

/-- Each linear-generator entry as integer arithmetic: for `i ≤ N`,
`round((N - i) / (N(N+1)/2) * T)` is the natural number
`(2·T·(N-i) + S) / (2S)` with `S = N(N+1)/2`. -/
theorem linear_entry_eq (N T i : Nat) (hN : 1 ≤ N) (hi : i ≤ N) :
    mathRound ((((N : ℚ) - (i : ℚ)) / (((N : ℚ) * ((N : ℚ) + 1)) / 2)) *
        (T : ℚ)) =
      (((2 * (T * (N - i)) + N * (N + 1) / 2) /
          (2 * (N * (N + 1) / 2)) : ℕ) : Int) := by
  have h2S : 2 * (N * (N + 1) / 2) = N * (N + 1) :=
    Nat.mul_div_cancel' (Nat.even_mul_succ_self N).two_dvd
  have hNN : 1 * 2 ≤ N * (N + 1) := Nat.mul_le_mul hN (by omega)
  have hSpos : 0 < N * (N + 1) / 2 := by omega
  have hSQ : ((N * (N + 1) / 2 : ℕ) : ℚ) = ((N : ℚ) * ((N : ℚ) + 1)) / 2 := by
    have hq := congrArg (fun x : Nat => (x : ℚ)) h2S
    push_cast at hq
    linarith
  have hSne : ((N * (N + 1) / 2 : ℕ) : ℚ) ≠ 0 := by
    have : (0 : ℚ) < ((N * (N + 1) / 2 : ℕ) : ℚ) := by exact_mod_cast hSpos
    linarith
  have hsub : ((N - i : ℕ) : ℚ) = (N : ℚ) - (i : ℚ) := Nat.cast_sub hi
  have harg : (((N : ℚ) - (i : ℚ)) / (((N : ℚ) * ((N : ℚ) + 1)) / 2)) *
      (T : ℚ) =
        ((T * (N - i) : ℕ) : ℚ) / ((N * (N + 1) / 2 : ℕ) : ℚ) := by
    rw [← hSQ]
    push_cast [hsub]
    field_simp
    ring
  rw [harg, mathRound_natDiv _ _ hSpos]

/-- The linear generator returns `N` nonnegative integers summing
exactly to `total`. -/
theorem generateLinearCombinations_spec (N T : Nat) (hN : 1 ≤ N) :
    (generateLinearCombinations N T).length = N ∧
    (∀ x ∈ generateLinearCombinations N T, 0 ≤ x) ∧
    (generateLinearCombinations N T).sum = (T : Int) := by
  simp only [generateLinearCombinations]
  apply generated_spec N T hN
  · intro i hi
    rw [linear_entry_eq N T i hN (le_of_lt hi)]
    exact Int.natCast_nonneg _
  · have hterm : ∀ i ∈ Finset.range (N - 1),
        mathRound ((((N : ℚ) - ((i + 1 : Nat) : ℚ)) /
            (((N : ℚ) * ((N : ℚ) + 1)) / 2)) * (T : ℚ)) =
          (((2 * T * (N - 1 - 1 - i + 1) + N * (N + 1) / 2) /
              (2 * (N * (N + 1) / 2)) : ℕ) : Int) := by
      intro i hi
      have hi' : i < N - 1 := Finset.mem_range.mp hi
      rw [linear_entry_eq N T (i + 1) hN (by omega)]
      have e1 : 2 * (T * (N - (i + 1))) = 2 * T * (N - 1 - 1 - i + 1) := by
        have e2 : N - (i + 1) = N - 1 - 1 - i + 1 := by omega
        rw [e2]
        ring
      rw [e1]
    rw [Finset.sum_congr rfl hterm]
    rw [← Nat.cast_sum]
    have hreflect : ∑ i in Finset.range (N - 1),
        (2 * T * (N - 1 - 1 - i + 1) + N * (N + 1) / 2) /
          (2 * (N * (N + 1) / 2)) =
        ∑ i in Finset.range (N - 1),
          (2 * T * (i + 1) + N * (N + 1) / 2) /
            (2 * (N * (N + 1) / 2)) :=
      Finset.sum_range_reflect
        (fun m => (2 * T * (m + 1) + N * (N + 1) / 2) /
          (2 * (N * (N + 1) / 2))) (N - 1)
    rw [hreflect]
    rcases Nat.eq_zero_or_pos T with rfl | hT
    · have hzero : ∀ i ∈ Finset.range (N - 1),
          (2 * 0 * (i + 1) + N * (N + 1) / 2) /
            (2 * (N * (N + 1) / 2)) = 0 := by
        intro i _
        have h2S : 2 * (N * (N + 1) / 2) = N * (N + 1) :=
          Nat.mul_div_cancel' (Nat.even_mul_succ_self N).two_dvd
        have hNN : 1 * 2 ≤ N * (N + 1) := Nat.mul_le_mul hN (by omega)
        apply Nat.div_eq_of_lt
        omega
      rw [Finset.sum_congr rfl hzero]
      simp
    · have := linear_tail_counting N T hN hT
      exact_mod_cast this

/-- C7: for every number of teams `N ≥ 1` and target total `T`, each of
`generateEqualCombinations`, `generateLinearCombinations` and
`generateExponentialCombinations` returns a list of exactly `N`
nonnegative integers whose sum is exactly `T` — never off by a rounding
error (JS float arithmetic idealised to exact rationals). -/
theorem generators_sum_invariant (N T : Nat) (hN : 1 ≤ N) :
    ((generateEqualCombinations N T).length = N ∧
      (∀ x ∈ generateEqualCombinations N T, 0 ≤ x) ∧
      (generateEqualCombinations N T).sum = (T : Int)) ∧
    ((generateLinearCombinations N T).length = N ∧
      (∀ x ∈ generateLinearCombinations N T, 0 ≤ x) ∧
      (generateLinearCombinations N T).sum = (T : Int)) ∧
    ((generateExponentialCombinations N T).length = N ∧
      (∀ x ∈ generateExponentialCombinations N T, 0 ≤ x) ∧
      (generateExponentialCombinations N T).sum = (T : Int)) :=
  ⟨generateEqualCombinations_spec N T hN,
    generateLinearCombinations_spec N T hN,
    generateExponentialCombinations_spec N T hN⟩

/-- C7 witness: three teams, total 10. -/
theorem generators_sum_invariant_witness :
    1 ≤ 3 ∧
    (((generateEqualCombinations 3 10).length = 3 ∧
      (∀ x ∈ generateEqualCombinations 3 10, 0 ≤ x) ∧
      (generateEqualCombinations 3 10).sum = (10 : Int)) ∧
    ((generateLinearCombinations 3 10).length = 3 ∧
      (∀ x ∈ generateLinearCombinations 3 10, 0 ≤ x) ∧
      (generateLinearCombinations 3 10).sum = (10 : Int)) ∧
    ((generateExponentialCombinations 3 10).length = 3 ∧
      (∀ x ∈ generateExponentialCombinations 3 10, 0 ≤ x) ∧
      (generateExponentialCombinations 3 10).sum = (10 : Int))) :=
  ⟨by norm_num, generators_sum_invariant 3 10 (by norm_num)⟩

end FFLottery
